import Mathlib

/-!
Verification development for the `ctgu-wutong` repository (family-circle
subscriber identification).  This file shallowly embeds the browser-side
query layer (`web/app.js`), the serverless AI endpoint (`web/api/ai.js`),
and the local development server (`web/local_dev_server.js`), and proves
properties of those embeddings.

Modelling conventions:
* SQLite rows become Lean structures; the three exported tables
  (`families`, `family_profile`, `edges`) each carry a `dataset` label
  column, per the export contract (spec §6: every run's rows are
  disambiguated by a dataset label).
* JavaScript strings are Lean `String`s; `ORDER BY ... ASC` on SQLite
  TEXT (BINARY collation, byte order) is modelled by lexicographic
  comparison on the character list, which agrees with byte order on
  UTF-8 for the codepoint ranges involved.
* Numbers displayed through `fmt` are modelled at value granularity
  (the rounding `Math.round(v*1000)/1000` is kept; the final
  number-to-text rendering is abstracted away).
* DOM elements touched by the code are fields of a `DomState` record;
  replacing a `<select>`'s `innerHTML` resets its selection to the first
  option (standard browser behaviour), which the model reflects.
-/

set_option maxRecDepth 8000

namespace Wutong

/-! ## Lexicographic string comparison (SQLite `ORDER BY ... ASC`) -/

/-- Lexicographic `≤` on character lists (byte order of SQLite's BINARY
collation). -/
def lexLe : List Char → List Char → Bool
  | [], _ => true
  | _ :: _, [] => false
  | a :: as, b :: bs => if a = b then lexLe as bs else decide (a < b)

/-- Lexicographic `≤` on strings. -/
def strLe (a b : String) : Bool := lexLe a.data b.data

/-- ASCII whitespace (the cases `String.prototype.trim` removes that can
occur in the inputs at hand). -/
def isWs (c : Char) : Bool := c = ' ' || c = '\t' || c = '\n' || c = '\r'

/-- JS `String.prototype.trim`. -/
def jsTrim (s : String) : String :=
  String.mk (((s.data.dropWhile isWs).reverse.dropWhile isWs).reverse)

/-- Does the SQL text begin with `SELECT`? -/
def isSelectStmt (s : String) : Bool := "SELECT".data.isPrefixOf s.data

/-! ## Generic insertion sort (model of `ORDER BY`) -/

/-- Insert an element into a list sorted by the boolean relation `le`. -/
def linsert (le : α → α → Bool) (x : α) : List α → List α
  | [] => [x]
  | y :: ys => if le x y then x :: y :: ys else y :: linsert le x ys

/-- Insertion sort by the boolean relation `le`. -/
def lsort (le : α → α → Bool) : List α → List α
  | [] => []
  | x :: xs => linsert le x (lsort le xs)

/-! ## Data model of the exported relational store (`web/data/family.db`) -/

/-- A row of the `families` table: one subscriber inside one dataset. -/
structure FamRow where
  subs_id : String
  dataset : String
  family_id_pred : String
  key_person_flag : Int
  deriving DecidableEq, Repr

/-- A row of the `family_profile` table (aggregate statistics are kept
opaque as key/value pairs). -/
structure ProfileRow where
  family_id_pred : String
  dataset : String
  stats : List (String × Int)
  deriving DecidableEq, Repr

/-- A row of the `edges` table. -/
structure EdgeRow where
  u : String
  v : String
  family_id_pred : String
  dataset : String
  same_family_prob : Rat
  rule_hit : Option String
  call_cnt : Int
  call_days : Int
  call_bases : Int
  deriving DecidableEq, Repr

/-- The loaded browser-side relational store. -/
structure Db where
  families : List FamRow
  family_profile : List ProfileRow
  edges : List EdgeRow
  deriving DecidableEq, Repr

/-- The row shape returned by the members query
(`SELECT subs_id, key_person_flag FROM families ...`). -/
structure MemberRow where
  subs_id : String
  key_person_flag : Int
  deriving DecidableEq, Repr

/-- The column set returned by the edges query in `querySubs`. -/
structure EdgeSelRow where
  u : String
  v : String
  same_family_prob : Rat
  rule_hit : Option String
  call_cnt : Int
  call_days : Int
  call_bases : Int
  deriving DecidableEq, Repr

def FamRow.toMemberRow (r : FamRow) : MemberRow :=
  { subs_id := r.subs_id, key_person_flag := r.key_person_flag }

def EdgeRow.toSel (e : EdgeRow) : EdgeSelRow :=
  { u := e.u, v := e.v, same_family_prob := e.same_family_prob,
    rule_hit := e.rule_hit, call_cnt := e.call_cnt,
    call_days := e.call_days, call_bases := e.call_bases }

/-! ## SQL statements issued by `querySubs` (verbatim from `web/app.js`) -/

def hitsSql : String :=
  "SELECT dataset, family_id_pred, key_person_flag FROM families WHERE subs_id = ? ORDER BY dataset ASC LIMIT 50"

def membersSql : String :=
  "SELECT subs_id, key_person_flag FROM families WHERE family_id_pred = ? ORDER BY key_person_flag DESC, subs_id ASC"

def profileSql : String :=
  "SELECT * FROM family_profile WHERE family_id_pred = ? LIMIT 1"

def edgesSql : String :=
  "SELECT u,v,same_family_prob,rule_hit,call_cnt,call_days,call_bases FROM edges WHERE family_id_pred = ? ORDER BY same_family_prob DESC LIMIT 200"

/-- Every SQL text `querySubs` ever passes to `execOne`/`execAll`. -/
def querySubsSqlTexts : List String := [hitsSql, membersSql, profileSql, edgesSql]

/-! ## Semantics of the four queries -/

/-- `ORDER BY dataset ASC` comparison for the hits query. -/
def famDsLe (a b : FamRow) : Bool := strLe a.dataset b.dataset

/-- `ORDER BY key_person_flag DESC, subs_id ASC` comparison for the
members query. -/
def memOrd (a b : FamRow) : Bool :=
  if a.key_person_flag = b.key_person_flag then strLe a.subs_id b.subs_id
  else decide (b.key_person_flag < a.key_person_flag)

/-- `ORDER BY same_family_prob DESC` comparison for the edges query. -/
def edgeOrd (a b : EdgeRow) : Bool := decide (b.same_family_prob ≤ a.same_family_prob)

/-- Semantics of `hitsSql`: rows of `families` matching the subscriber,
ascending by dataset, first 50. -/
def hitsFor (db : Db) (subsId : String) : List FamRow :=
  (lsort famDsLe (db.families.filter (fun r => r.subs_id == subsId))).take 50

/-- Semantics of `membersSql`.  Note: the `WHERE` clause constrains only
`family_id_pred`; it does not mention `dataset`. -/
def membersFor (db : Db) (familyId : String) : List MemberRow :=
  (lsort memOrd (db.families.filter (fun r => r.family_id_pred == familyId))).map
    FamRow.toMemberRow

/-- Semantics of `profileSql` (`LIMIT 1`: first stored row).  The `WHERE`
clause constrains only `family_id_pred`. -/
def profileFor (db : Db) (familyId : String) : Option ProfileRow :=
  (db.family_profile.filter (fun r => r.family_id_pred == familyId)).head?

/-- Semantics of `edgesSql`.  The `WHERE` clause constrains only
`family_id_pred`. -/
def edgesFor (db : Db) (familyId : String) : List EdgeSelRow :=
  ((lsort edgeOrd (db.edges.filter (fun e => e.family_id_pred == familyId))).take 200).map
    EdgeRow.toSel

/-! ## Manifest handling (`loadManifest` and the threshold display) -/

/-- One manifest record (spec §6: at least
`{threshold, edge_count, family_count, model_version}`); a `none` field
models an absent (JS `undefined`) property. -/
structure ManifestEntry where
  threshold : Option Rat
  edge_count : Option Int
  family_count : Option Int
  model_version : Option String
  deriving DecidableEq, Repr

/-- `state.manifest` after a successful load: a JS object mapping dataset
labels to manifest entries, modelled as an association list. -/
abbrev ManifestMap := List (String × ManifestEntry)

/-- Outcome of one `fetch(...)`/`res.json()` round trip:
the fetch may reject, return a non-ok response, or return ok with a body
whose JSON parse either succeeds (`some`) or throws (`none`). -/
inductive FetchJson (α : Type) where
  | fetchThrow : FetchJson α
  | fetchNotOk : FetchJson α
  | fetchOk : Option α → FetchJson α
  deriving DecidableEq, Repr

/-- Embedding of `loadManifest` (`web/app.js` lines 447-461): try
`./data/manifests.json` first; on a non-ok response fall back to
`./data/manifest.json` wrapped as the `default` entry; any thrown error
is swallowed and leaves the manifest state `none`.  A throw from the
first fetch aborts the whole `try` block, so the fallback is only
attempted after a non-ok (not a thrown) first response. -/
def loadManifest (manifests : FetchJson ManifestMap)
    (manifest : FetchJson ManifestEntry) : Option ManifestMap :=
  match manifests with
  | .fetchOk (some m) => some m
  | .fetchOk none => none
  | .fetchThrow => none
  | .fetchNotOk =>
    match manifest with
    | .fetchOk (some e) => some [("default", e)]
    | _ => none

/-- The manifest entry `querySubs` consults for a dataset
(`(state.manifest && state.manifest[dataset]) ||
(state.manifest && state.manifest.default) || null`). -/
def manifestEntry (manifest : Option ManifestMap) (dataset : String) :
    Option ManifestEntry :=
  match manifest with
  | none => none
  | some m => (List.lookup dataset m).orElse (fun _ => List.lookup "default" m)

/-! ## `fmt` (value-level) -/

/-- `Math.round` (round half toward positive infinity). -/
def jsRound (q : Rat) : Int := ⌊q + 1/2⌋

/-- Value-level model of `fmt` on a finite number: numbers of magnitude
below `1e6` are rounded to three decimals, larger ones are shown as-is. -/
def fmtVal (q : Rat) : Rat :=
  if |q| < 1000000 then (jsRound (q * 1000) : Rat) / 1000 else q

/-! ## DOM and application state -/

/-- Content of the `basicInfo` key/value panel. -/
inductive BasicView where
  | notFound (subs_id : String)
  | info (subs_id : String) (dataset : String) (hitsCount : Nat)
      (family_id_pred : String) (key_person_flag : Int) (membersCount : Nat)
  deriving DecidableEq, Repr

/-- Content of the members panel (`renderMembers`). -/
inductive MembersView where
  | noneFound
  | pills (shown : List MemberRow) (overflow : Nat)
  deriving DecidableEq, Repr

/-- Content of the edge table (`renderEdgeTable`): an explicit
empty-edges message, or up to 200 rows. -/
inductive EdgeTableView where
  | emptyMsg
  | rows (rs : List EdgeSelRow)
  deriving DecidableEq, Repr

/-- One rendered graph node (`renderGraph`). -/
structure GraphNode where
  id : String
  isKeyPerson : Bool
  deriving DecidableEq, Repr

/-- One rendered graph link (`renderGraph`). -/
structure GraphLink where
  fromId : String
  toId : String
  value : Rat
  ruleHighlight : Bool
  deriving DecidableEq, Repr

/-- The rendered graph. -/
structure GraphView where
  nodes : List GraphNode
  links : List GraphLink
  deriving DecidableEq, Repr

/-- The DOM pieces `querySubs` reads or writes.  `none` in an `Option`
field means the element was never written since page load. -/
structure DomState where
  basic : Option BasicView
  members : Option MembersView
  profileView : Option (Option ProfileRow)
  edgeTable : Option EdgeTableView
  graph : Option GraphView
  edgeCountText : Option Nat
  thresholdShown : Option Rat
  datasetValue : String
  datasetOpts : Option (List (String × String))
  datasetDisabled : Bool
  datasetHintMulti : Bool
  deriving DecidableEq, Repr

/-- `state.lastContext` as saved at the end of a successful query. -/
structure AiContext where
  subsId : String
  familyId : String
  dataset : String
  threshold : Option Rat
  members : List MemberRow
  profile : Option ProfileRow
  edges : List EdgeSelRow
  deriving DecidableEq, Repr

/-- The mutable application state (the `state` global plus the DOM). -/
structure AppState where
  db : Db
  manifest : Option ManifestMap
  dom : DomState
  lastContext : Option AiContext
  aiBusy : Bool
  aiNextAllowedAt : Int
  deriving DecidableEq, Repr

/-! ## `setDatasetOptions` and `querySubs` -/

/-- Option value/label for a hit (`String(h.dataset || "default")`). -/
def dsLabel (ds : String) : String := if ds = "" then "default" else ds

/-- Model stand-in for the auto option's label text. -/
def autoOptionLabel : String := "AUTO_ANY_DATASET"

/-- The `(value, label)` option list `setDatasetOptions` builds. -/
def datasetOptsOf (hits : List FamRow) : List (String × String) :=
  ("", autoOptionLabel) :: hits.map (fun h => (dsLabel h.dataset, dsLabel h.dataset))

/-- Embedding of `setDatasetOptions` (`web/app.js` lines 70-92),
returning the rebuilt option list, the resulting `sel.value`, and the
`disabled` flag.  After the `innerHTML` assignment the selection has
been reset to the first option, so the `cur` read back from the element
is `""`; assigning a value that is not among the option values leaves
the selection unchanged. -/
def setDatasetOptionsModel (hits : List FamRow) (selectedDataset : String) :
    List (String × String) × String × Bool :=
  let opts := datasetOptsOf hits
  let allowed := opts.map Prod.fst
  let v1 := if allowed.contains selectedDataset then selectedDataset else ""
  let v2 :=
    if v1 = "" then
      match hits with
      | [] => v1
      | h0 :: _ => h0.dataset
    else v1
  let value := if allowed.contains v2 then v2 else ""
  (opts, value, decide (hits.length ≤ 1))

/-- Hit selection of `querySubs` (line 515): the first hit whose dataset
equals the (truthy) preferred dataset, else the first hit. -/
def pickHit (hits : List FamRow) (preferred : String) (h0 : FamRow) : FamRow :=
  (if preferred ≠ "" then hits.find? (fun h => h.dataset == preferred)
   else none).getD h0

/-- Embedding of `querySubs` (`web/app.js` lines 496-566) as a state
transformer over `AppState`. -/
def querySubs (st : AppState) (subsIdRaw : String) : AppState :=
  let subsId := jsTrim subsIdRaw
  if subsId = "" then st
  else
    match hitsFor st.db subsId with
    | [] =>
      { st with
        dom := { st.dom with
          basic := some (.notFound subsId)
          members := some .noneFound
          profileView := some none
          edgeTable := some .emptyMsg
          graph := some ⟨[], []⟩
          edgeCountText := some 0
          datasetHintMulti := false } }
    | h0 :: hrest =>
      let hits := h0 :: hrest
      let preferred := jsTrim st.dom.datasetValue
      let selected := pickHit hits preferred h0
      let sdo := setDatasetOptionsModel hits preferred
      let familyId := selected.family_id_pred
      let dataset := if selected.dataset = "" then "default" else selected.dataset
      let members := membersFor st.db familyId
      let profile := profileFor st.db familyId
      let edges := edgesFor st.db familyId
      let entry := manifestEntry st.manifest dataset
      let thr : Option Rat := entry.bind (fun e => e.threshold)
      let thrShown :=
        match thr with
        | some t => some (fmtVal t)
        | none => st.dom.thresholdShown
      let nodes := members.map (fun m =>
        GraphNode.mk m.subs_id (m.key_person_flag = 1))
      let links := ((edges.filter (fun e =>
          members.any (fun m => m.subs_id == e.u) &&
          members.any (fun m => m.subs_id == e.v))).take 400).map (fun e =>
        GraphLink.mk e.u e.v e.same_family_prob e.rule_hit.isSome)
      { st with
        dom := { st.dom with
          basic := some (.info subsId dataset hits.length familyId
            selected.key_person_flag members.length)
          members := some (.pills (members.take 200)
            (members.length - min members.length 200))
          profileView := some profile
          edgeTable := some (if edges.isEmpty then .emptyMsg
            else .rows (edges.take 200))
          graph := some ⟨nodes, links⟩
          edgeCountText := some links.length
          thresholdShown := thrShown
          datasetValue := sdo.2.1
          datasetOpts := some sdo.1
          datasetDisabled := sdo.2.2
          datasetHintMulti := decide (1 < hits.length) }
        lastContext := some
          { subsId := subsId, familyId := familyId, dataset := dataset,
            threshold := thr, members := members, profile := profile,
            edges := edges } }

/-! ## Rate limiter (`web/api/ai.js` lines 29-41 and the identical
function in `web/local_dev_server.js` lines 66-78) -/

/-- `RATE_LIMIT_WINDOW_MS = 60 * 1000`. -/
def rlWindowMs : Int := 60000

/-- `RATE_LIMIT_MAX = 6`. -/
def rlMax : Nat := 6

/-- One per-IP bucket (`{ ts, cnt }`). -/
structure RlBucket where
  ts : Int
  cnt : Nat
  deriving DecidableEq, Repr

/-- The record `rateLimitOk` returns. -/
structure RlOutcome where
  ok : Bool
  remaining : Int
  resetMs : Int
  deriving DecidableEq, Repr

/-- Embedding of `rateLimitOk` for one IP: given that IP's bucket (if
any) and `Date.now()`, return the outcome and the bucket stored back in
the map. -/
def rateLimitOk (bucket : Option RlBucket) (now : Int) : RlOutcome × RlBucket :=
  match bucket with
  | none => (⟨true, (rlMax : Int) - 1, rlWindowMs⟩, ⟨now, 1⟩)
  | some b =>
    if rlWindowMs < now - b.ts then
      (⟨true, (rlMax : Int) - 1, rlWindowMs⟩, ⟨now, 1⟩)
    else if rlMax ≤ b.cnt then
      (⟨false, 0, rlWindowMs - (now - b.ts)⟩, b)
    else
      (⟨true, (rlMax : Int) - ((b.cnt : Int) + 1), rlWindowMs - (now - b.ts)⟩,
       ⟨b.ts, b.cnt + 1⟩)

/-- Run a sequence of request times against one bucket, counting how
many requests were admitted. -/
def rlRun (b : RlBucket) : List Int → Nat × RlBucket
  | [] => (0, b)
  | t :: ts =>
    let r := rateLimitOk (some b) t
    let rest := rlRun r.2 ts
    (if r.1.ok then rest.1 + 1 else rest.1, rest.2)

/-! ## JavaScript value model for the `/api/ai` handlers -/

/-- A JavaScript value as the handlers manipulate it. -/
inductive JsVal where
  | undef : JsVal
  | nullv : JsVal
  | bool : Bool → JsVal
  | num : Int → JsVal
  | str : String → JsVal
  | arr : List JsVal → JsVal
  | obj : List (String × JsVal) → JsVal
  deriving Repr

/-- JS truthiness. -/
def truthy : JsVal → Bool
  | .undef => false
  | .nullv => false
  | .bool b => b
  | .num n => decide (n ≠ 0)
  | .str s => decide (s ≠ "")
  | .arr _ => true
  | .obj _ => true

/-- Property access `v[k]` (named member); missing members are
`undefined`. -/
def getMember (v : JsVal) (k : String) : JsVal :=
  match v with
  | .obj fs => (List.lookup k fs).getD .undef
  | .arr xs => if k = "length" then .num xs.length else .undef
  | .str s => if k = "length" then .num s.length else .undef
  | _ => (.undef)

/-- Index access `v[i]`. -/
def getIndex (v : JsVal) (i : Nat) : JsVal :=
  match v with
  | .arr xs => xs.getD i .undef
  | .obj fs => (List.lookup (toString i) fs).getD .undef
  | .str s =>
    match s.data.get? i with
    | some c => .str (String.mk [c])
    | none => .undef
  | _ => (.undef)

/-- Optional-chaining member access `v?.k`. -/
def optMember (v : JsVal) (k : String) : JsVal :=
  match v with
  | .undef => .undef
  | .nullv => .undef
  | _ => getMember v k

/-- Optional-chaining index access `v?.[i]`. -/
def optIndex (v : JsVal) (i : Nat) : JsVal :=
  match v with
  | .undef => .undef
  | .nullv => .undef
  | _ => getIndex v i

/-- The nullish-coalescing operator `a ?? b`. -/
def nullish (a b : JsVal) : JsVal :=
  match a with
  | .undef => b
  | .nullv => b
  | _ => a

/-- JS `a || b`. -/
def jsOr (a b : JsVal) : JsVal := if truthy a then a else b

/-- JS `a && b`. -/
def jsAnd (a b : JsVal) : JsVal := if truthy a then b else a

mutual

/-- JS `String(v)` for the values the handlers can feed it. -/
def jsToString : JsVal → String
  | .undef => "undefined"
  | .nullv => "null"
  | .bool b => if b then "true" else "false"
  | .num n => toString n
  | .str s => s
  | .arr xs => jsToStringList xs
  | .obj _ => "[object Object]"

/-- JS array-to-string: elements joined with commas. -/
def jsToStringList : List JsVal → String
  | [] => ""
  | [x] => jsToString x
  | x :: rest => jsToString x ++ "," ++ jsToStringList rest

end

/-- Content extraction of the serverless function (`web/api/ai.js`
lines 166-170):
`json?.choices?.[0]?.message?.content ??
 json?.data?.choices?.[0]?.message?.content ??
 json?.choices?.[0]?.delta?.content ?? ""`. -/
def serverlessContent (json : JsVal) : JsVal :=
  let c1 := optMember (optMember (optIndex (optMember json "choices") 0) "message") "content"
  let c2 := optMember (optMember (optIndex (optMember (optMember json "data") "choices") 0) "message") "content"
  let c3 := optMember (optMember (optIndex (optMember json "choices") 0) "delta") "content"
  nullish c1 (nullish c2 (nullish c3 (.str "")))

/-- Content extraction of the local dev server
(`web/local_dev_server.js` line 223):
`(json.choices && json.choices[0] && json.choices[0].message &&
  json.choices[0].message.content) || ""`. -/
def devContent (json : JsVal) : JsVal :=
  let a := getMember json "choices"
  let a0 := getIndex a 0
  let m := getMember a0 "message"
  let c := getMember m "content"
  jsOr (jsAnd (jsAnd (jsAnd a a0) m) c) (.str "")

/-- The JSON response body of either handler; `none` fields were not
present in the serialized object. -/
structure AiBody where
  ok : Bool
  error : Option String
  model : Option String
  structured : Option JsVal
  reply : Option JsVal
  status : Option Nat
  detail : Option String
  deriving Repr

/-- A minimal HTTP response: status code plus optional JSON body. -/
structure HttpOut where
  status : Nat
  body : Option AiBody
  deriving Repr

/-- A body with only `ok` and `error` set (the error responses). -/
def errBody (e : String) : AiBody :=
  { ok := false, error := some e, model := none, structured := none,
    reply := none, status := none, detail := none }

/-- Shared inputs of one `/api/ai` request: the HTTP method, the
caller's rate-limit bucket and current time, the configured key and
model name, the upstream chat-completion outcome (`none` = the request
threw), and the `JSON.parse` oracle both files wrap in their identical
`safeJsonParse`. -/
structure AiEnv where
  method : String
  bucket : Option RlBucket
  now : Int
  apiKey : Option String
  zhipuModel : String
  upstream : Option (Nat × String)
  parseJson : String → Option JsVal

/-- `fetch`'s `Response.ok` / the dev server's explicit 2xx test. -/
def upstream2xx (s : Nat) : Bool := decide (200 ≤ s) && decide (s < 300)

/-- The tail of both handlers' success paths, shared verbatim between
the two files (`structured`, `reply` and the 200 body), parameterized by
the extracted `content`. -/
def aiSuccessBody (parse : String → Option JsVal) (model : String)
    (content : JsVal) : AiBody :=
  let structured0 : JsVal :=
    match content with
    | .str s => (parse s).getD .nullv
    | _ => .nullv
  { ok := true, error := none, model := some model,
    structured := some (jsOr structured0 .nullv),
    reply := some (if truthy structured0 then .nullv
      else .str (jsToString (jsOr content (.str "")))),
    status := none, detail := none }

/-- The `/api/ai` request pipeline that `web/api/ai.js` (lines 85-193)
and `web/local_dev_server.js` (lines 196-234) implement with
line-for-line identical logic — CORS preflight, method check, rate
limit, key check, upstream call, upstream-error passthrough, success
body — except for how the chat content is extracted from the parsed
upstream JSON, which is passed in as `content`. -/
def aiHandlerCore (env : AiEnv) (content : JsVal → JsVal) : HttpOut :=
  if env.method = "OPTIONS" then ⟨204, none⟩
  else if env.method ≠ "POST" then ⟨405, some (errBody "Method Not Allowed")⟩
  else
    let rl := (rateLimitOk env.bucket env.now).1
    if ¬ rl.ok then ⟨429, some (errBody "Rate limited. Please slow down.")⟩
    else if (env.apiKey.getD "") = "" then
      ⟨500, some (errBody "Missing env var ZHIPU_API_KEY")⟩
    else
      match env.upstream with
      | none => ⟨500, some (errBody "Server error")⟩
      | some (ustatus, utext) =>
        if ¬ upstream2xx ustatus then
          ⟨if ustatus = 429 then 429 else 502,
           some { errBody "Upstream error" with
             status := some ustatus, detail := some (utext.take 2000) }⟩
        else
          let json := (env.parseJson utext).getD (.obj [])
          ⟨200, some (aiSuccessBody env.parseJson env.zhipuModel
            (content json))⟩

/-- Embedding of the serverless `/api/ai` function
(`web/api/ai.js` lines 85-193). -/
def handlerServerless (env : AiEnv) : HttpOut :=
  aiHandlerCore env serverlessContent

/-- Embedding of the local dev server's `/api/ai` branch
(`web/local_dev_server.js` lines 196-234). -/
def handlerDev (env : AiEnv) : HttpOut :=
  aiHandlerCore env devContent

/-- The parsed upstream body as both handlers see it (their identical
`safeJsonParse(text) || {}`). -/
def upstreamJson (env : AiEnv) : JsVal :=
  match env.upstream with
  | some (_, utext) => (env.parseJson utext).getD (.obj [])
  | none => .obj []

/-- Upstream chat-completion body whose content sits at
`data.choices[0].message.content` (a response shape the serverless
function accepts but the dev server does not). -/
def upstreamBodyC9 : String :=
  "\x7b\"data\":\x7b\"choices\":[\x7b\"message\":\x7b\"content\":\"hello\"\x7d\x7d]\x7d\x7d"

/-- The JSON value `upstreamBodyC9` parses to. -/
def parsedBodyC9 : JsVal :=
  .obj [("data", .obj [("choices",
    .arr [.obj [("message", .obj [("content", .str "hello")])]])])]

/-- `JSON.parse` oracle for the counterexample environment. -/
def parseC9 : String → Option JsVal :=
  fun s => if s = upstreamBodyC9 then some parsedBodyC9 else none

/-- Counterexample request environment: a `POST` with a 200 upstream
response carrying `upstreamBodyC9`. -/
def envC9 : AiEnv :=
  ⟨"POST", none, 0, some "key", "GLM-4-Flash-250414",
   some (200, upstreamBodyC9), parseC9⟩

/-- Request environment on which the two handlers agree (content chains
coincide: the parse oracle fails, so the parsed body is `{}`). -/
def envC9w : AiEnv :=
  ⟨"POST", none, 0, some "key", "GLM-4-Flash-250414",
   some (200, "plainbody"), fun _ => none⟩

/-! ## POSIX path model for the static-file branch of the dev server
(`web/local_dev_server.js` lines 236-252)

Paths are modelled as character lists (`String.data`).  `path.normalize`
and `path.join` follow Node's POSIX semantics (the dev server targets
Node 14 on a POSIX host); `'\\'` is an ordinary file-name character
there. -/

/-- The `".."` segment. -/
def dotdot : List Char := ['.', '.']

/-- Split a character list on `'/'`; always returns at least one
(possibly empty) segment. -/
def sepSplit : List Char → List (List Char)
  | [] => [[]]
  | c :: rest =>
    if c = '/' then [] :: sepSplit rest
    else
      match sepSplit rest with
      | [] => [[c]]
      | s :: ss => (c :: s) :: ss

/-- The segments `path.normalize` actually processes: empty segments and
`"."` are discarded. -/
def segsF (l : List Char) : List (List Char) :=
  (sepSplit l).filter (fun s => decide (s ≠ []) && decide (s ≠ ['.']))

/-- The segment-resolution loop of POSIX `path.normalize`: `".."` pops a
preceding normal segment, accumulates at the head of a relative path,
and is dropped at the root of an absolute path.  The accumulator is the
output stack in reverse order. -/
def normRun (isAbs : Bool) (stack : List (List Char)) :
    List (List Char) → List (List Char)
  | [] => stack
  | seg :: rest =>
    if seg = dotdot then
      match stack with
      | [] => normRun isAbs (if isAbs then [] else [dotdot]) rest
      | top :: stail =>
        if top = dotdot then normRun isAbs (dotdot :: stack) rest
        else normRun isAbs stail rest
    else normRun isAbs (seg :: stack) rest

/-- Join segments with `'/'`. -/
def interSep : List (List Char) → List Char
  | [] => []
  | [s] => s
  | s :: rest => s ++ '/' :: interSep rest

/-- Does the path end with a separator? -/
def endsWithSlash (l : List Char) : Bool := l.getLast? = some '/'

/-- POSIX `path.normalize`. -/
def normalizeLC (p : List Char) : List Char :=
  let isAbs := p.head? = some '/'
  let trail := endsWithSlash p && decide (1 < p.length)
  let out := (normRun isAbs [] (segsF p)).reverse
  let core := interSep out
  let body := if isAbs then '/' :: core else core
  let res := if body = [] then ['.'] else body
  if trail && !(endsWithSlash res) then res ++ ['/'] else res

/-- The regex strip `replace(/^(\.\.[/\\])+/, "")`: remove every leading
repetition of `".."` followed by `'/'` or `'\\'`. -/
def stripDotDotSep : List Char → List Char
  | c1 :: c2 :: c3 :: rest =>
    if c1 = '.' ∧ c2 = '.' ∧ (c3 = '/' ∨ c3 = '\\') then stripDotDotSep rest
    else c1 :: c2 :: c3 :: rest
  | l => l

/-- POSIX `path.join(root, p)` for a nonempty `root`. -/
def joinLC (root p : List Char) : List Char :=
  if p = [] then normalizeLC root else normalizeLC (root ++ '/' :: p)

/-- Decision of the static branch before the file system is consulted:
either `403 Forbidden`, or an absolute path handed to `fs.readFile`
(which yields the contents on success and `404` on error). -/
inductive StaticDecision where
  | forbidden
  | tryServe (abs : List Char)
  deriving Repr, DecidableEq

/-- `"/index.html"`. -/
def indexHtml : List Char := ['/', 'i', 'n', 'd', 'e', 'x', '.', 'h', 't', 'm', 'l']

/-- Embedding of the static-file branch: default the root URL to
`/index.html`, normalize, strip leading `"../"`/`"..\"` repetitions,
join onto the server root, and refuse anything that does not extend the
root (`abs.startsWith(ROOT)`). -/
def staticHandler (root pathname : List Char) : StaticDecision :=
  let filePath0 := if pathname = ['/'] then indexHtml else pathname
  let filePath := stripDotDotSep (normalizeLC filePath0)
  let abs := joinLC root filePath
  if root.isPrefixOf abs then .tryServe abs else .forbidden

/-- An absolute path built from segments. -/
def mkAbsPath (segs : List (List Char)) : List Char := '/' :: interSep segs

/-- A well-formed root directory segment: nonempty, not `"."`, not
`".."`, and free of separators. -/
def okSeg (s : List Char) : Bool :=
  decide (s ≠ []) && decide (s ≠ ['.']) && decide (s ≠ dotdot) &&
    decide ('/' ∉ s)

/-- `abs` lies below (or at) the directory `root`. -/
def underRoot (root abs : List Char) : Prop :=
  abs = root ∨ (root ++ ['/']).isPrefixOf abs = true

/-! ## Concrete fixtures used by witnesses and counterexamples -/

/-- The DOM as it is right after page load (nothing rendered yet,
dataset selector on the auto option). -/
def dom0 : DomState :=
  ⟨none, none, none, none, none, none, none, "", none, false, false⟩

/-- A fresh application state over a given store and manifest. -/
def baseState (db : Db) (manifest : Option ManifestMap) : AppState :=
  ⟨db, manifest, dom0, none, false, 0⟩

/-- Store with two coexisting datasets `d1`/`d2` that reuse the family
id `F1`: subscriber `A` belongs to `F1` in `d1`; subscribers `X`,`Y`
belong to `F1` in `d2`, with a `d2` edge and a `d2` profile row. -/
def dbC1 : Db :=
  ⟨[⟨"A", "d1", "F1", 1⟩, ⟨"X", "d2", "F1", 0⟩, ⟨"Y", "d2", "F1", 0⟩],
   [⟨"F1", "d2", [("size", 2)]⟩],
   [⟨"X", "Y", "F1", "d2", (9 : Rat)/10, none, 5, 3, 2⟩]⟩

/-- Store with a single singleton family (zero edges). -/
def dbC4 : Db :=
  ⟨[⟨"B", "d1", "F2", 1⟩], [⟨"F2", "d1", [("size", 1)]⟩], []⟩

end Wutong

namespace Wutong

/-! # Theorems -/

/-! ## Order and sorting lemmas -/

theorem lexLe_total : ∀ (a b : List Char), lexLe a b = true ∨ lexLe b a = true := by
  intro a
  induction a with
  | nil => intro b; left; rfl
  | cons x xs ih =>
    intro b
    cases b with
    | nil => right; rfl
    | cons y ys =>
      by_cases hxy : x = y
      · subst hxy
        simpa [lexLe] using ih ys
      · rcases lt_trichotomy x y with h | h | h
        · left; simp [lexLe, hxy, h]
        · exact absurd h hxy
        · right; simp [lexLe, Ne.symm hxy, h]

theorem lexLe_trans :
    ∀ (a b c : List Char), lexLe a b = true → lexLe b c = true → lexLe a c = true := by
  intro a
  induction a with
  | nil => intro b c _ _; rfl
  | cons x xs ih =>
    intro b c hab hbc
    cases b with
    | nil => simp [lexLe] at hab
    | cons y ys =>
      cases c with
      | nil => simp [lexLe] at hbc
      | cons z zs =>
        by_cases hxy : x = y
        · subst hxy
          simp only [lexLe, if_pos rfl] at hab
          by_cases hxz : x = z
          · subst hxz
            simp only [lexLe, if_pos rfl] at hbc ⊢
            exact ih ys zs hab hbc
          · simp only [lexLe, if_neg hxz] at hbc ⊢
            exact hbc
        · simp only [lexLe, if_neg hxy] at hab
          have hxy' : x < y := of_decide_eq_true hab
          by_cases hyz : y = z
          · subst hyz
            simp only [lexLe, if_neg hxy]
            exact hab
          · simp only [lexLe, if_neg hyz] at hbc
            have hyz' : y < z := of_decide_eq_true hbc
            have hxz' : x < z := lt_trans hxy' hyz'
            simp [lexLe, ne_of_lt hxz', hxz']

theorem lexLe_nil_right {a : List Char} (h : lexLe a [] = true) : a = [] := by
  cases a with
  | nil => rfl
  | cons x xs => simp [lexLe] at h

theorem strLe_total (a b : String) : strLe a b = true ∨ strLe b a = true :=
  lexLe_total a.data b.data

theorem strLe_trans {a b c : String} (h1 : strLe a b = true) (h2 : strLe b c = true) :
    strLe a c = true :=
  lexLe_trans a.data b.data c.data h1 h2

theorem strLe_empty_right {s : String} (h : strLe s "" = true) : s = "" := by
  cases s with
  | mk data =>
    have : data = [] := lexLe_nil_right h
    rw [this]

theorem famDsLe_total (a b : FamRow) : famDsLe a b = true ∨ famDsLe b a = true :=
  strLe_total a.dataset b.dataset

theorem famDsLe_trans {a b c : FamRow} (h1 : famDsLe a b = true)
    (h2 : famDsLe b c = true) : famDsLe a c = true :=
  strLe_trans h1 h2

theorem mem_linsert {le : α → α → Bool} {x b : α} :
    ∀ {l : List α}, b ∈ linsert le x l ↔ b = x ∨ b ∈ l := by
  intro l
  induction l with
  | nil => simp [linsert]
  | cons y ys ih =>
    simp only [linsert]
    by_cases h : le x y = true
    · rw [if_pos h]
      simp [or_comm, or_assoc, or_left_comm]
    · rw [if_neg h]
      simp only [List.mem_cons, ih]
      tauto

theorem pairwise_linsert {le : α → α → Bool}
    (htot : ∀ a b, le a b = true ∨ le b a = true)
    (htrans : ∀ a b c, le a b = true → le b c = true → le a c = true)
    (x : α) :
    ∀ {l : List α}, l.Pairwise (fun a b => le a b = true) →
      (linsert le x l).Pairwise (fun a b => le a b = true) := by
  intro l
  induction l with
  | nil => intro _; simp [linsert]
  | cons y ys ih =>
    intro hl
    cases hl with
    | cons hy hys =>
      simp only [linsert]
      by_cases h : le x y = true
      · rw [if_pos h]
        refine List.Pairwise.cons ?_ (List.Pairwise.cons hy hys)
        intro b hb
        rcases List.mem_cons.mp hb with hb | hb
        · rw [hb]; exact h
        · exact htrans x y b h (hy b hb)
      · rw [if_neg h]
        have hyx : le y x = true := (htot x y).resolve_left h
        refine List.Pairwise.cons ?_ (ih hys)
        intro b hb
        rcases mem_linsert.mp hb with hb | hb
        · rw [hb]; exact hyx
        · exact hy b hb

theorem pairwise_lsort {le : α → α → Bool}
    (htot : ∀ a b, le a b = true ∨ le b a = true)
    (htrans : ∀ a b c, le a b = true → le b c = true → le a c = true) :
    ∀ (l : List α), (lsort le l).Pairwise (fun a b => le a b = true) := by
  intro l
  induction l with
  | nil => simp [lsort]
  | cons x xs ih => exact pairwise_linsert htot htrans x ih

theorem hitsFor_pairwise (db : Db) (subsId : String) :
    (hitsFor db subsId).Pairwise (fun a b => strLe a.dataset b.dataset = true) := by
  unfold hitsFor
  exact List.Pairwise.sublist (List.take_sublist 50 _)
    (pairwise_lsort famDsLe_total (fun a b c => famDsLe_trans) _)

/-- `C5`: The query layer is read-only: every SQL text `querySubs`
passes to `execOne`/`execAll` is a `SELECT` statement, and running a
query (for any state and any input) leaves the loaded database and the
manifest state unchanged. -/
theorem claim_C5_read_only :
    querySubsSqlTexts.all (fun s => isSelectStmt s) = true ∧
    ∀ (st : AppState) (raw : String),
      (querySubs st raw).db = st.db ∧ (querySubs st raw).manifest = st.manifest := by
  refine ⟨rfl, fun st raw => ?_⟩
  by_cases h : jsTrim raw = ""
  · simp [querySubs, h]
  · cases hh : hitsFor st.db (jsTrim raw) with
    | nil => simp [querySubs, h, hh]
    | cons h0 hrest => simp [querySubs, h, hh]

/-- `C1`: FAILS on the code (code bug).  The member/profile/edge queries
filter only on `family_id_pred` and never on `dataset`, so when two
coexisting datasets reuse a family id the query for subscriber `A`
(hit in dataset `d1`) displays members `X`,`Y`, a profile row and an
evidence edge that exist only in dataset `d2`. -/
theorem claim_C1_cross_dataset_leak :
    ((querySubs (baseState dbC1 none) "A").lastContext.map (fun c =>
        (c.dataset, c.members.map (fun m => m.subs_id), c.profile,
         c.edges.map (fun e => (e.u, e.v))))) =
      some ("d1", ["A", "X", "Y"], some ⟨"F1", "d2", [("size", 2)]⟩,
        [("X", "Y")]) ∧
    (dbC1.families.filter (fun r => r.subs_id == "X" || r.subs_id == "Y")).all
      (fun r => r.dataset == "d2") = true :=
  ⟨rfl, rfl⟩

/-- `C4`: A query whose selected family has zero edges completes and
renders the explicit empty-edges message, a graph with no links, the
profile row that exists (if any), and a saved AI context with an empty
edge list — no failure anywhere on the path. -/
theorem claim_C4_singleton_family :
    ∀ (st : AppState) (raw : String) (h0 : FamRow) (hrest : List FamRow),
      jsTrim raw ≠ "" →
      hitsFor st.db (jsTrim raw) = h0 :: hrest →
      edgesFor st.db
        (pickHit (h0 :: hrest) (jsTrim st.dom.datasetValue) h0).family_id_pred = [] →
      (querySubs st raw).dom.edgeTable = some .emptyMsg ∧
      (querySubs st raw).dom.graph =
        some ⟨(membersFor st.db
            (pickHit (h0 :: hrest) (jsTrim st.dom.datasetValue) h0).family_id_pred).map
          (fun m => GraphNode.mk m.subs_id (m.key_person_flag = 1)), []⟩ ∧
      (querySubs st raw).dom.edgeCountText = some 0 ∧
      (querySubs st raw).dom.profileView =
        some (profileFor st.db
          (pickHit (h0 :: hrest) (jsTrim st.dom.datasetValue) h0).family_id_pred) ∧
      ∃ ctx, (querySubs st raw).lastContext = some ctx ∧ ctx.edges = [] := by
  intro st raw h0 hrest hne hhits hedges
  unfold querySubs
  rw [if_neg hne, hhits]
  exact ⟨by simp [hedges], by simp [hedges], by simp [hedges], rfl,
    ⟨_, rfl, by simp [hedges]⟩⟩

/-- Witness for `C4` at a concrete singleton-family store. -/
theorem claim_C4_singleton_family_witness :
    jsTrim "B" ≠ "" ∧
    (querySubs (baseState dbC4 none) "B").dom.edgeTable = some .emptyMsg ∧
    (querySubs (baseState dbC4 none) "B").dom.edgeCountText = some 0 := by
  have h := claim_C4_singleton_family (baseState dbC4 none) "B"
    ⟨"B", "d1", "F2", 1⟩ [] (by decide) rfl rfl
  exact ⟨by decide, h.1, h.2.2.1⟩

/-- `C3`: On a successful query the consulted manifest entry is the one
keyed by the selected dataset, else the `default` entry, else nothing;
when that entry defines a threshold it is displayed (rounded as `fmt`
does) and stored in the AI context; when no applicable entry defines a
threshold the stored threshold is `none` and the displayed text is left
unchanged. -/
theorem claim_C3_threshold_resolution :
    ∀ (st : AppState) (raw : String) (h0 : FamRow) (hrest : List FamRow),
      jsTrim raw ≠ "" →
      hitsFor st.db (jsTrim raw) = h0 :: hrest →
      (∀ m, st.manifest = some m →
        manifestEntry st.manifest
            (if (pickHit (h0 :: hrest) (jsTrim st.dom.datasetValue) h0).dataset = ""
             then "default"
             else (pickHit (h0 :: hrest) (jsTrim st.dom.datasetValue) h0).dataset) =
          (List.lookup
              (if (pickHit (h0 :: hrest) (jsTrim st.dom.datasetValue) h0).dataset = ""
               then "default"
               else (pickHit (h0 :: hrest) (jsTrim st.dom.datasetValue) h0).dataset) m).orElse
            (fun _ => List.lookup "default" m)) ∧
      (∀ e t,
        manifestEntry st.manifest
            (if (pickHit (h0 :: hrest) (jsTrim st.dom.datasetValue) h0).dataset = ""
             then "default"
             else (pickHit (h0 :: hrest) (jsTrim st.dom.datasetValue) h0).dataset) = some e →
        e.threshold = some t →
        (querySubs st raw).dom.thresholdShown = some (fmtVal t) ∧
        ∃ ctx, (querySubs st raw).lastContext = some ctx ∧ ctx.threshold = some t) ∧
      ((manifestEntry st.manifest
            (if (pickHit (h0 :: hrest) (jsTrim st.dom.datasetValue) h0).dataset = ""
             then "default"
             else (pickHit (h0 :: hrest) (jsTrim st.dom.datasetValue) h0).dataset)).bind
          (fun e => e.threshold) = none →
        (querySubs st raw).dom.thresholdShown = st.dom.thresholdShown ∧
        ∃ ctx, (querySubs st raw).lastContext = some ctx ∧ ctx.threshold = none) := by
  intro st raw h0 hrest hne hhits
  refine ⟨fun m hm => by rw [hm]; rfl, ?_, ?_⟩
  · intro e t he ht
    unfold querySubs
    rw [if_neg hne, hhits]
    simp [he, ht]
  · intro hnone
    unfold querySubs
    rw [if_neg hne, hhits]
    simp [hnone]

/-- Concrete manifest map used by the `C3` witness. -/
def manifestW : ManifestMap :=
  [("d1", ⟨some (1/2), some 1, some 1, some "v1"⟩)]

/-- Witness for `C3`: with a per-dataset map defining `threshold = 0.5`
for `d1`, querying `A` in `dbC1` displays `0.5` and stores it. -/
theorem claim_C3_threshold_resolution_witness :
    (querySubs (baseState dbC1 (some manifestW)) "A").dom.thresholdShown =
      some (fmtVal (1/2)) ∧
    ∃ ctx, (querySubs (baseState dbC1 (some manifestW)) "A").lastContext = some ctx ∧
      ctx.threshold = some (1/2) := by
  have h := (claim_C3_threshold_resolution (baseState dbC1 (some manifestW)) "A"
    ⟨"A", "d1", "F1", 1⟩ [] (by decide) rfl).2.1
    ⟨some (1/2), some 1, some 1, some "v1"⟩ (1/2) rfl rfl
  exact h

/-- `C7`: `loadManifest` is never fatal: a parsed manifests map wins; a
thrown fetch or parse leaves the manifest `none`; a non-ok manifests
response falls back to the single manifest wrapped as the `default`
entry; when both fail the state stays `none`; and with a `none`
manifest a subscriber query still succeeds, storing no threshold and
leaving the displayed threshold unchanged. -/
theorem claim_C7_manifest_never_fatal :
    (∀ r1 m, loadManifest (.fetchOk (some m)) r1 = some m) ∧
    (∀ r1, loadManifest .fetchThrow r1 = none) ∧
    (∀ r1, loadManifest (.fetchOk none) r1 = none) ∧
    (∀ e, loadManifest .fetchNotOk (.fetchOk (some e)) = some [("default", e)]) ∧
    (loadManifest .fetchNotOk .fetchThrow = none ∧
      loadManifest .fetchNotOk .fetchNotOk = none ∧
      loadManifest .fetchNotOk (.fetchOk none) = none) ∧
    (∀ (st : AppState) (raw : String) (h0 : FamRow) (hrest : List FamRow),
      st.manifest = none →
      jsTrim raw ≠ "" →
      hitsFor st.db (jsTrim raw) = h0 :: hrest →
      (querySubs st raw).dom.thresholdShown = st.dom.thresholdShown ∧
      ∃ ctx, (querySubs st raw).lastContext = some ctx ∧ ctx.threshold = none) := by
  refine ⟨fun r1 m => rfl, fun r1 => rfl, fun r1 => rfl, fun e => rfl,
    ⟨rfl, rfl, rfl⟩, ?_⟩
  intro st raw h0 hrest hman hne hhits
  unfold querySubs
  rw [if_neg hne, hhits]
  simp [hman, manifestEntry]

/-- Witness for `C7` at a concrete store with no manifest loaded. -/
theorem claim_C7_manifest_never_fatal_witness :
    loadManifest .fetchNotOk (.fetchOk (some ⟨some (1/2), none, none, none⟩)) =
      some [("default", ⟨some (1/2), none, none, none⟩)] ∧
    (querySubs (baseState dbC4 none) "B").dom.thresholdShown =
      (baseState dbC4 none).dom.thresholdShown := by
  have h := claim_C7_manifest_never_fatal
  exact ⟨h.2.2.2.1 ⟨some (1/2), none, none, none⟩,
    (h.2.2.2.2.2 (baseState dbC4 none) "B" ⟨"B", "d1", "F2", 1⟩ []
      rfl (by decide) rfl).1⟩

/-- `C6`: For equal databases, equal manifest states and an equal
dataset-selector value, querying the same `subs_id` yields identical
results — the same basic info, member list, profile, edge table, graph,
selector state and saved AI context — regardless of every other piece
of mutable state. -/
theorem claim_C6_determinism :
    ∀ (s1 s2 : AppState) (raw : String) (h0 : FamRow) (hrest : List FamRow),
      s1.db = s2.db → s1.manifest = s2.manifest →
      s1.dom.datasetValue = s2.dom.datasetValue →
      jsTrim raw ≠ "" →
      hitsFor s1.db (jsTrim raw) = h0 :: hrest →
      (querySubs s1 raw).lastContext = (querySubs s2 raw).lastContext ∧
      (querySubs s1 raw).dom.basic = (querySubs s2 raw).dom.basic ∧
      (querySubs s1 raw).dom.members = (querySubs s2 raw).dom.members ∧
      (querySubs s1 raw).dom.profileView = (querySubs s2 raw).dom.profileView ∧
      (querySubs s1 raw).dom.edgeTable = (querySubs s2 raw).dom.edgeTable ∧
      (querySubs s1 raw).dom.graph = (querySubs s2 raw).dom.graph ∧
      (querySubs s1 raw).dom.edgeCountText = (querySubs s2 raw).dom.edgeCountText ∧
      (querySubs s1 raw).dom.datasetValue = (querySubs s2 raw).dom.datasetValue ∧
      (querySubs s1 raw).dom.datasetOpts = (querySubs s2 raw).dom.datasetOpts ∧
      (querySubs s1 raw).dom.datasetDisabled = (querySubs s2 raw).dom.datasetDisabled := by
  intro s1 s2 raw h0 hrest hdb hman hsel hne hhits
  simp only [querySubs, ← hdb, ← hman, ← hsel, if_neg hne, hhits]
  simp

/-- A second state over `dbC4` differing from the base one in every
query-irrelevant component. -/
def stC6 : AppState :=
  ⟨dbC4, none,
   ⟨some (.notFound "zz"), some .noneFound, some none, some .emptyMsg,
    some ⟨[], []⟩, some 7, some (3/4), "", some [("", "x")], true, true⟩,
   some ⟨"zz", "F9", "d9", some 1, [], none, []⟩, true, 123⟩

/-- Witness for `C6`: the base state and `stC6` agree on db, manifest
and selector value, and produce the same saved context. -/
theorem claim_C6_determinism_witness :
    (querySubs (baseState dbC4 none) "B").lastContext =
      (querySubs stC6 "B").lastContext ∧
    (querySubs (baseState dbC4 none) "B").dom.members =
      (querySubs stC6 "B").dom.members := by
  have h := claim_C6_determinism (baseState dbC4 none) stC6 "B"
    ⟨"B", "d1", "F2", 1⟩ [] rfl rfl rfl (by decide) rfl
  exact ⟨h.1, h.2.2.1⟩

/-- `C2`: The hits are listed in ascending dataset order; the query uses
the hit whose dataset equals the selector value when one exists and the
first hit otherwise; the selector is rebuilt to list each hit's dataset
label after the auto option; and it is disabled exactly when at most
one dataset is hit. -/
theorem claim_C2_dataset_selection :
    ∀ (st : AppState) (raw : String) (h0 : FamRow) (hrest : List FamRow),
      jsTrim raw ≠ "" →
      hitsFor st.db (jsTrim raw) = h0 :: hrest →
      (h0 :: hrest).Pairwise (fun a b => strLe a.dataset b.dataset = true) ∧
      ((∃ h ∈ h0 :: hrest, h.dataset = jsTrim st.dom.datasetValue) →
        (pickHit (h0 :: hrest) (jsTrim st.dom.datasetValue) h0).dataset =
          jsTrim st.dom.datasetValue) ∧
      ((∀ h ∈ h0 :: hrest, h.dataset ≠ jsTrim st.dom.datasetValue) →
        pickHit (h0 :: hrest) (jsTrim st.dom.datasetValue) h0 = h0) ∧
      (querySubs st raw).dom.datasetOpts = some (datasetOptsOf (h0 :: hrest)) ∧
      (querySubs st raw).dom.datasetDisabled = decide ((h0 :: hrest).length ≤ 1) := by
  intro st raw h0 hrest hne hhits
  have hpair : (h0 :: hrest).Pairwise (fun a b => strLe a.dataset b.dataset = true) := by
    rw [← hhits]; exact hitsFor_pairwise st.db (jsTrim raw)
  refine ⟨hpair, ?_, ?_, ?_, ?_⟩
  · rintro ⟨h, hmem, hds⟩
    by_cases hp : jsTrim st.dom.datasetValue = ""
    · rw [hp]
      simp only [pickHit, hp, ne_eq, not_true_eq_false, if_neg, ite_false,
        Option.getD_none]
      rcases List.mem_cons.mp hmem with hh | hh
      · rw [← hh, hds, hp]
      · have hle : strLe h0.dataset h.dataset = true :=
          (List.pairwise_cons.mp hpair).1 h hh
        rw [hds, hp] at hle
        exact strLe_empty_right hle
    · obtain ⟨h', hfind⟩ :
        ∃ h', (h0 :: hrest).find? (fun x => x.dataset == jsTrim st.dom.datasetValue)
          = some h' := by
        cases hf : (h0 :: hrest).find? (fun x => x.dataset == jsTrim st.dom.datasetValue) with
        | some h' => exact ⟨h', rfl⟩
        | none =>
          exact absurd (by simp [hds] : (fun x => x.dataset == jsTrim st.dom.datasetValue) h = true)
            (by simpa using List.find?_eq_none.mp hf h hmem)
      have := List.find?_some hfind
      simp only [pickHit, if_pos hp, hfind]
      · simpa using this
  · intro hall
    by_cases hp : jsTrim st.dom.datasetValue = ""
    · simp [pickHit, hp]
    · have : (h0 :: hrest).find? (fun x => x.dataset == jsTrim st.dom.datasetValue) = none := by
        rw [List.find?_eq_none]
        intro x hx
        simp [hall x hx]
      simp [pickHit, hp, this]
  · unfold querySubs
    rw [if_neg hne, hhits]
    rfl
  · unfold querySubs
    rw [if_neg hne, hhits]
    rfl

/-- Store in which subscriber `M` is hit in two coexisting datasets. -/
def dbC2 : Db :=
  ⟨[⟨"M", "d2", "G2", 0⟩, ⟨"M", "d1", "G1", 1⟩],
   [⟨"G1", "d1", []⟩, ⟨"G2", "d2", []⟩], []⟩

/-- Witness for `C2` at the two-dataset store with the auto selector:
the first hit (ascending dataset order: `d1`) is used, the options list
both labels, and the selector is enabled. -/
theorem claim_C2_dataset_selection_witness :
    pickHit [⟨"M", "d1", "G1", 1⟩, ⟨"M", "d2", "G2", 0⟩] "" ⟨"M", "d1", "G1", 1⟩ =
      ⟨"M", "d1", "G1", 1⟩ ∧
    (querySubs (baseState dbC2 none) "M").dom.datasetOpts =
      some (datasetOptsOf [⟨"M", "d1", "G1", 1⟩, ⟨"M", "d2", "G2", 0⟩]) ∧
    (querySubs (baseState dbC2 none) "M").dom.datasetDisabled = false := by
  have h := claim_C2_dataset_selection (baseState dbC2 none) "M"
    ⟨"M", "d1", "G1", 1⟩ [⟨"M", "d2", "G2", 0⟩] (by decide) rfl
  exact ⟨h.2.2.1 (by decide), h.2.2.2.1, by rw [h.2.2.2.2]; decide⟩

/-! ## Rate limiter lemmas -/

theorem rlRun_bound :
    ∀ (times : List Int) (b : RlBucket),
      (∀ t ∈ times, t - b.ts ≤ rlWindowMs) → b.cnt ≤ rlMax →
      b.cnt + (rlRun b times).1 ≤ rlMax := by
  intro times
  induction times with
  | nil => intro b _ hc; simpa [rlRun] using hc
  | cons t ts ih =>
    intro b htimes hc
    have ht : t - b.ts ≤ rlWindowMs := htimes t (by simp)
    have hts : ∀ u ∈ ts, u - b.ts ≤ rlWindowMs := fun u hu => htimes u (by simp [hu])
    simp only [rlRun, rateLimitOk]
    rw [if_neg (by omega : ¬ rlWindowMs < t - b.ts)]
    by_cases hfull : rlMax ≤ b.cnt
    · rw [if_pos hfull]
      have := ih b hts hc
      simp at this ⊢
      omega
    · rw [if_neg hfull]
      have := ih ⟨b.ts, b.cnt + 1⟩ (by intro u hu; simpa using hts u hu)
        (by simp only []; omega)
      simp at this ⊢
      omega

/-- `C8`: The `/api/ai` rate limiter admits at most `RATE_LIMIT_MAX = 6`
requests per 60-second bucket window: a first request (or one arriving
after the window expired) resets the bucket to count 1; an admitted
in-window request increments the count; once the count reaches 6, every
further in-window request is rejected, and the handlers answer it with
HTTP 429 and `ok = false`. -/
theorem claim_C8_rate_limiter :
    (∀ now : Int, rateLimitOk none now =
      (⟨true, (rlMax : Int) - 1, rlWindowMs⟩, ⟨now, 1⟩)) ∧
    (∀ (b : RlBucket) (now : Int), rlWindowMs < now - b.ts →
      rateLimitOk (some b) now =
        (⟨true, (rlMax : Int) - 1, rlWindowMs⟩, ⟨now, 1⟩)) ∧
    (∀ (b : RlBucket) (now : Int), now - b.ts ≤ rlWindowMs → b.cnt < rlMax →
      (rateLimitOk (some b) now).1.ok = true ∧
      (rateLimitOk (some b) now).2 = ⟨b.ts, b.cnt + 1⟩) ∧
    (∀ (b : RlBucket) (now : Int), now - b.ts ≤ rlWindowMs → rlMax ≤ b.cnt →
      (rateLimitOk (some b) now).1.ok = false ∧
      (rateLimitOk (some b) now).2 = b) ∧
    (∀ (b : RlBucket) (times : List Int),
      (∀ t ∈ times, t - b.ts ≤ rlWindowMs) → b.cnt ≤ rlMax →
      b.cnt + (rlRun b times).1 ≤ rlMax) ∧
    (∀ env : AiEnv, env.method = "POST" →
      (rateLimitOk env.bucket env.now).1.ok = false →
      handlerServerless env =
        ⟨429, some (errBody "Rate limited. Please slow down.")⟩ ∧
      handlerDev env =
        ⟨429, some (errBody "Rate limited. Please slow down.")⟩) := by
  refine ⟨fun now => rfl, ?_, ?_, ?_, fun b times h hc => rlRun_bound times b h hc, ?_⟩
  · intro b now h
    simp only [rateLimitOk, if_pos h]
  · intro b now h hlt
    have h1 : ¬ rlWindowMs < now - b.ts := by omega
    have h2 : ¬ rlMax ≤ b.cnt := by omega
    simp [rateLimitOk, if_neg h1, if_neg h2]
  · intro b now h hge
    have h1 : ¬ rlWindowMs < now - b.ts := by omega
    simp [rateLimitOk, if_neg h1, if_pos hge]
  · intro env hm hrl
    constructor
    · simp [handlerServerless, aiHandlerCore, hm, hrl]
    · simp [handlerDev, aiHandlerCore, hm, hrl]

/-- Rate-limit environment for the `C8` witness: a bucket already at
count 6 inside its window. -/
def envC8 : AiEnv :=
  ⟨"POST", some ⟨0, 6⟩, 10, some "key", "GLM-4-Flash-250414",
   some (200, "irrelevant"), fun _ => none⟩

/-- Witness for `C8`: a seventh in-window request is answered 429 with
`ok = false`, and a full in-window run admits at most six requests. -/
theorem claim_C8_rate_limiter_witness :
    handlerServerless envC8 =
      ⟨429, some (errBody "Rate limited. Please slow down.")⟩ ∧
    1 + (rlRun ⟨0, 1⟩ [1, 2, 3, 4, 5, 6, 7, 8]).1 ≤ rlMax ∧
    (rlRun ⟨0, 1⟩ [1, 2, 3, 4, 5, 6, 7, 8]).1 = 5 := by
  have h := claim_C8_rate_limiter
  refine ⟨(h.2.2.2.2.2 envC8 rfl rfl).1, ?_, rfl⟩
  have hb := h.2.2.2.2.1 ⟨0, 1⟩ [1, 2, 3, 4, 5, 6, 7, 8] (by decide) (by decide)
  simpa using hb

/-- `C9` (counterexample): for the fixed upstream 200 response whose
content sits at `data.choices[0].message.content`, both handlers answer
200 but the serverless reply is `"hello"` while the dev server's reply
is `""` — the claimed behavioural equivalence fails. -/
theorem claim_C9_counterexample :
    (handlerServerless envC9).status = 200 ∧
    (handlerDev envC9).status = 200 ∧
    ((handlerServerless envC9).body.map (fun b => b.reply)) =
      some (some (.str "hello")) ∧
    ((handlerDev envC9).body.map (fun b => b.reply)) = some (some (.str "")) ∧
    handlerServerless envC9 ≠ handlerDev envC9 := by
  have hS : ((handlerServerless envC9).body.map (fun b => b.reply)) =
      some (some (.str "hello")) := rfl
  have hD : ((handlerDev envC9).body.map (fun b => b.reply)) =
      some (some (.str "")) := rfl
  refine ⟨rfl, rfl, hS, hD, fun h => ?_⟩
  have h2 : some (some (JsVal.str "hello")) = some (some (JsVal.str "")) := by
    rw [← hS, ← hD, h]
  simp at h2

/-- `C9` (amended): the two `/api/ai` implementations always agree on
the HTTP status, and they return the same response body whenever their
content extractions agree on the parsed upstream JSON — in particular
whenever the content sits at `choices[0].message.content` or the
request fails before the success path; they diverge only on the
`data.choices[0].message.content` / `choices[0].delta.content` shapes
that only the serverless function reads. -/
theorem claim_C9_amended :
    ∀ env : AiEnv,
      (handlerServerless env).status = (handlerDev env).status ∧
      (serverlessContent (upstreamJson env) = devContent (upstreamJson env) →
        handlerServerless env = handlerDev env) := by
  intro env
  have key : ∀ f g : JsVal → JsVal,
      f (upstreamJson env) = g (upstreamJson env) →
      aiHandlerCore env f = aiHandlerCore env g := by
    intro f g hfg
    unfold aiHandlerCore
    rcases hu : env.upstream with _ | ⟨⟨ustatus, utext⟩⟩
    · simp [hu]
    · have hfg' : f ((env.parseJson utext).getD (.obj [])) =
          g ((env.parseJson utext).getD (.obj [])) := by
        simpa [upstreamJson, hu] using hfg
      simp [hu, hfg']
  have stat : ∀ f g : JsVal → JsVal,
      (aiHandlerCore env f).status = (aiHandlerCore env g).status := by
    intro f g
    unfold aiHandlerCore
    rcases hu : env.upstream with _ | ⟨⟨ustatus, utext⟩⟩
    · by_cases h1 : env.method = "OPTIONS" <;>
        by_cases h2 : env.method = "POST" <;>
        by_cases h3 : (rateLimitOk env.bucket env.now).1.ok = true <;>
        by_cases h4 : (env.apiKey.getD "") = "" <;>
        simp [hu, h1, h2, h3, h4]
    · by_cases h1 : env.method = "OPTIONS" <;>
        by_cases h2 : env.method = "POST" <;>
        by_cases h3 : (rateLimitOk env.bucket env.now).1.ok = true <;>
        by_cases h4 : (env.apiKey.getD "") = "" <;>
        by_cases h5 : upstream2xx ustatus = true <;>
        simp [hu, h1, h2, h3, h4, h5]
  exact ⟨stat serverlessContent devContent, key serverlessContent devContent⟩

/-- Witness for the amended `C9`: on `envC9w` the content extractions
agree, so the two handlers produce identical responses. -/
theorem claim_C9_amended_witness :
    handlerServerless envC9w = handlerDev envC9w ∧
    (handlerServerless envC9w).status = (handlerDev envC9w).status :=
  ⟨(claim_C9_amended envC9w).2 rfl, (claim_C9_amended envC9w).1⟩

/-! ## Path lemmas for the static-file branch -/

theorem sepSplit_cons_shape : ∀ l : List Char, ∃ s ss, sepSplit l = s :: ss := by
  intro l
  induction l with
  | nil => exact ⟨[], [], rfl⟩
  | cons c t ih =>
    by_cases hc : c = '/'
    · exact ⟨[], sepSplit t, by simp [sepSplit, hc]⟩
    · obtain ⟨s, ss, h⟩ := ih
      exact ⟨c :: s, ss, by simp [sepSplit, hc, h]⟩

theorem sepSplit_cons_nonSep {c : Char} (hc : c ≠ '/') {t s : List Char}
    {ss : List (List Char)} (h : sepSplit t = s :: ss) :
    sepSplit (c :: t) = (c :: s) :: ss := by
  simp [sepSplit, hc, h]

theorem sepSplit_sep (t : List Char) : sepSplit ('/' :: t) = [] :: sepSplit t := by
  simp [sepSplit]

theorem sepSplit_append :
    ∀ a b : List Char, sepSplit (a ++ '/' :: b) = sepSplit a ++ sepSplit b := by
  intro a
  induction a with
  | nil => intro b; simp [sepSplit]
  | cons c t ih =>
    intro b
    by_cases hc : c = '/'
    · subst hc
      rw [List.cons_append, sepSplit_sep, sepSplit_sep, ih, List.cons_append]
    · obtain ⟨s, ss, ht⟩ := sepSplit_cons_shape t
      have h2 : sepSplit (t ++ '/' :: b) = s :: (ss ++ sepSplit b) := by
        rw [ih, ht]; rfl
      rw [List.cons_append, sepSplit_cons_nonSep hc h2, sepSplit_cons_nonSep hc ht]
      rfl

theorem mem_sepSplit_no_sep : ∀ (l : List Char) (s : List Char),
    s ∈ sepSplit l → '/' ∉ s := by
  intro l
  induction l with
  | nil =>
    intro s hs
    simp [sepSplit] at hs
    simp [hs]
  | cons c t ih =>
    intro s hs
    by_cases hc : c = '/'
    · subst hc
      rw [sepSplit_sep] at hs
      rcases List.mem_cons.mp hs with h | h
      · simp [h]
      · exact ih s h
    · obtain ⟨s0, ss, ht⟩ := sepSplit_cons_shape t
      rw [sepSplit_cons_nonSep hc ht] at hs
      rcases List.mem_cons.mp hs with h | h
      · subst h
        intro hmem
        rcases List.mem_cons.mp hmem with h | h
        · exact hc h.symm
        · exact ih s0 (ht ▸ List.mem_cons_self s0 ss) h
      · exact ih s (ht ▸ List.mem_cons_of_mem s0 h)

theorem sepSplit_no_sep_self : ∀ s : List Char, '/' ∉ s → sepSplit s = [s] := by
  intro s
  induction s with
  | nil => intro _; rfl
  | cons c t ih =>
    intro h
    have hc : c ≠ '/' := fun hc => h (hc ▸ List.mem_cons_self c t)
    have ht : '/' ∉ t := fun hm => h (List.mem_cons_of_mem c hm)
    exact sepSplit_cons_nonSep hc (ih ht)

theorem interSep_cons (s : List Char) (b : List Char) (bs : List (List Char)) :
    interSep (s :: b :: bs) = s ++ '/' :: interSep (b :: bs) := rfl

theorem interSep_append :
    ∀ (as bs : List (List Char)), as ≠ [] → bs ≠ [] →
      interSep (as ++ bs) = interSep as ++ '/' :: interSep bs := by
  intro as
  induction as with
  | nil => intro bs h _; exact absurd rfl h
  | cons a as' ih =>
    intro bs _ hbs
    cases as' with
    | nil =>
      cases bs with
      | nil => exact absurd rfl hbs
      | cons b bs' => simp [interSep_cons, interSep]
    | cons a2 as'' =>
      have h1 : interSep ((a :: a2 :: as'') ++ bs) =
          a ++ '/' :: interSep ((a2 :: as'') ++ bs) := by
        rw [List.cons_append]
        cases h2 : (a2 :: as'') ++ bs with
        | nil => exact absurd h2 (by simp)
        | cons x xs => rw [← h2]; rfl
      rw [h1, ih bs (by simp) hbs, interSep_cons, List.append_assoc]
      rfl

theorem sepSplit_interSep :
    ∀ segs : List (List Char), segs ≠ [] → (∀ s ∈ segs, '/' ∉ s) →
      sepSplit (interSep segs) = segs := by
  intro segs
  induction segs with
  | nil => intro h _; exact absurd rfl h
  | cons s rest ih =>
    intro _ hns
    cases rest with
    | nil => exact sepSplit_no_sep_self s (hns s (by simp))
    | cons b bs =>
      rw [interSep_cons, sepSplit_append, sepSplit_no_sep_self s (hns s (by simp)),
        ih (by simp) (fun x hx => hns x (List.mem_cons_of_mem s hx))]
      rfl

theorem normRun_normal (isAbs : Bool) :
    ∀ (segs stack : List (List Char)),
      (∀ s ∈ segs, s ≠ dotdot) →
      normRun isAbs stack segs = segs.reverse ++ stack := by
  intro segs
  induction segs with
  | nil => intro stack _; simp [normRun]
  | cons seg t ih =>
    intro stack hall
    have hs : seg ≠ dotdot := hall seg (by simp)
    simp only [normRun, if_neg hs]
    rw [ih (seg :: stack) (fun s h => hall s (List.mem_cons_of_mem seg h))]
    simp

theorem normRun_shape (isAbs : Bool) :
    ∀ (segs ns : List (List Char)) (k : Nat),
      (∀ g ∈ ns, g ≠ dotdot) → (isAbs = true → k = 0) →
      ∃ (k' : Nat) (ns' : List (List Char)),
        normRun isAbs (ns.reverse ++ List.replicate k dotdot) segs =
          ns'.reverse ++ List.replicate k' dotdot ∧
        (∀ g ∈ ns', g ≠ dotdot) ∧ (isAbs = true → k' = 0) := by
  intro segs
  induction segs with
  | nil => intro ns k hns hk; exact ⟨k, ns, rfl, hns, hk⟩
  | cons seg t ih =>
    intro ns k hns hk
    by_cases hs : seg = dotdot
    · subst hs
      rcases List.eq_nil_or_concat ns with rfl | ⟨ns0, b, rfl⟩
      · cases k with
        | zero =>
          simp only [List.reverse_nil, List.nil_append, List.replicate, normRun,
            if_pos rfl]
          by_cases ha : isAbs = true
          · rw [if_pos ha]
            have := ih [] 0 (by simp) (fun _ => rfl)
            simpa using this
          · rw [if_neg ha]
            have := ih [] 1 (by simp) (fun h => absurd h ha)
            simpa using this
        | succ j =>
          have hstack : (([] : List (List Char)).reverse ++
              List.replicate (j + 1) dotdot) = dotdot :: List.replicate j dotdot := by
            simp [List.replicate]
          rw [hstack]
          simp only [normRun, if_pos rfl]
          have := ih [] (j + 2) (by simp)
            (fun h => absurd (hk h) (by omega))
          simpa [List.replicate] using this
      · have hb : b ∈ ns0.concat b := by simp
        have hbne : b ≠ dotdot := hns b hb
        have hstack : ((ns0.concat b).reverse ++ List.replicate k dotdot) =
            b :: (ns0.reverse ++ List.replicate k dotdot) := by
          simp [List.concat_eq_append, List.reverse_append]
        rw [hstack]
        simp only [normRun, if_pos rfl, if_neg hbne]
        exact ih ns0 k (fun g hg => hns g (by simp [hg])) hk
    · have hstep : normRun isAbs (ns.reverse ++ List.replicate k dotdot)
          (seg :: t) = normRun isAbs
            ((ns.concat seg).reverse ++ List.replicate k dotdot) t := by
        simp only [normRun, if_neg hs]
        congr 1
        simp [List.concat_eq_append, List.reverse_append]
      rw [hstep]
      refine ih (ns.concat seg) k ?_ hk
      intro g hg
      rcases (by simpa [List.concat_eq_append] using hg : g ∈ ns ∨ g = seg) with hg2 | hg2
      · exact hns g hg2
      · rw [hg2]; exact hs

theorem normRun_mem (isAbs : Bool) :
    ∀ (segs stack : List (List Char)) (g : List Char),
      g ∈ normRun isAbs stack segs → g ∈ stack ∨ g ∈ segs ∨ g = dotdot := by
  intro segs
  induction segs with
  | nil => intro stack g hg; exact Or.inl hg
  | cons seg t ih =>
    intro stack g hg
    by_cases hs : seg = dotdot
    · subst hs
      cases stack with
      | nil =>
        simp only [normRun, if_pos rfl] at hg
        rcases ih _ g hg with h | h | h
        · by_cases ha : isAbs
          · rw [if_pos ha] at h; simp at h
          · rw [if_neg ha] at h
            simp at h
            exact Or.inr (Or.inr h)
        · exact Or.inr (Or.inl (List.mem_cons_of_mem _ h))
        · exact Or.inr (Or.inr h)
      | cons top st =>
        by_cases ht : top = dotdot
        · simp only [normRun, if_pos rfl, if_pos ht] at hg
          rcases ih _ g hg with h | h | h
          · rcases List.mem_cons.mp h with h | h
            · exact Or.inr (Or.inr h)
            · exact Or.inl h
          · exact Or.inr (Or.inl (List.mem_cons_of_mem _ h))
          · exact Or.inr (Or.inr h)
        · simp only [normRun, if_pos rfl, if_neg ht] at hg
          rcases ih _ g hg with h | h | h
          · exact Or.inl (List.mem_cons_of_mem _ h)
          · exact Or.inr (Or.inl (List.mem_cons_of_mem _ h))
          · exact Or.inr (Or.inr h)
    · simp only [normRun, if_neg hs] at hg
      rcases ih _ g hg with h | h | h
      · rcases List.mem_cons.mp h with h | h
        · exact Or.inr (Or.inl (h ▸ List.mem_cons_self _ _))
        · exact Or.inl h
      · exact Or.inr (Or.inl (List.mem_cons_of_mem _ h))
      · exact Or.inr (Or.inr h)

theorem sepSplit_head_decomp :
    ∀ (l s : List Char) (ss : List (List Char)),
      sepSplit l = s :: ss →
      (ss = [] ∧ l = s) ∨ ∃ t, l = s ++ '/' :: t ∧ sepSplit t = ss := by
  intro l
  induction l with
  | nil =>
    intro s ss h
    simp only [sepSplit] at h
    injection h with h1 h2
    exact Or.inl ⟨h2.symm, h1⟩
  | cons c t ih =>
    intro s ss h
    by_cases hc : c = '/'
    · subst hc
      rw [sepSplit_sep] at h
      injection h with h1 h2
      subst h1
      exact Or.inr ⟨t, by simp, h2⟩
    · obtain ⟨s0, ss0, ht⟩ := sepSplit_cons_shape t
      rw [sepSplit_cons_nonSep hc ht] at h
      injection h with h1 h2
      subst h1
      subst h2
      rcases ih s0 ss0 ht with ⟨hss, hts⟩ | ⟨u, hu, hsu⟩
      · exact Or.inl ⟨hss, by rw [hts]⟩
      · exact Or.inr ⟨u, by rw [hu]; rfl, hsu⟩

theorem okSeg_spec {s : List Char} (h : okSeg s = true) :
    s ≠ [] ∧ s ≠ ['.'] ∧ s ≠ dotdot ∧ '/' ∉ s := by
  simpa [okSeg, and_assoc] using h

theorem isPre_refl_append : ∀ a b : List Char, List.isPrefixOf a (a ++ b) = true := by
  intro a b
  induction a with
  | nil => simp [List.isPrefixOf]
  | cons c t ih => simp [List.isPrefixOf, ih]

theorem isPre_length :
    ∀ {a b : List Char}, List.isPrefixOf a b = true → a.length ≤ b.length := by
  intro a
  induction a with
  | nil => intro b _; simp
  | cons c t ih =>
    intro b h
    cases b with
    | nil => simp [List.isPrefixOf] at h
    | cons d u =>
      simp only [List.isPrefixOf, Bool.and_eq_true] at h
      simpa using ih h.2

theorem ends_dotdot (a : List Char) : endsWithSlash (a ++ '/' :: dotdot) = false := by
  have h1 : (a ++ '/' :: dotdot).getLast? = some '.' := by
    rw [List.getLast?_append]; rfl
  simp [endsWithSlash, h1]

theorem rawShape_no_head_dotdot {l : List Char}
    (hshape : ∃ (k : Nat) (rest : List (List Char)),
      sepSplit l = List.replicate k dotdot ++ rest ∧ ∀ s ∈ rest, s ≠ dotdot)
    (hne : l ≠ dotdot) (hns : ∀ r : List Char, l ≠ '.' :: '.' :: '/' :: r) :
    ∀ g ∈ segsF l, g ≠ dotdot := by
  obtain ⟨k, rest, heq, hrest⟩ := hshape
  cases k with
  | zero =>
    intro g hg
    have hmem : g ∈ sepSplit l := List.mem_of_mem_filter hg
    rw [heq] at hmem
    exact hrest g (by simpa using hmem)
  | succ j =>
    exfalso
    have hhead : sepSplit l = dotdot :: (List.replicate j dotdot ++ rest) := by
      simpa [List.replicate] using heq
    rcases sepSplit_head_decomp l dotdot _ hhead with ⟨_, hl⟩ | ⟨t, hl, _⟩
    · exact hne hl
    · exact hns t hl

theorem stripSafe :
    ∀ (n : Nat) (l : List Char), l.length ≤ n →
      (∃ (k : Nat) (rest : List (List Char)),
        sepSplit l = List.replicate k dotdot ++ rest ∧ ∀ s ∈ rest, s ≠ dotdot) →
      stripDotDotSep l = dotdot ∨
        ∀ g ∈ segsF (stripDotDotSep l), g ≠ dotdot := by
  intro n
  induction n with
  | zero =>
    intro l hl _
    have : l = [] := List.length_eq_zero.mp (Nat.le_zero.mp hl)
    subst this
    right
    intro g hg
    simp [segsF, sepSplit, stripDotDotSep] at hg
  | succ n ih =>
    intro l hl hshape
    rcases l with _ | ⟨c1, _ | ⟨c2, _ | ⟨c3, r⟩⟩⟩
    · right; intro g hg; simp [segsF, sepSplit, stripDotDotSep] at hg
    · by_cases hdd : ([c1] : List Char) = dotdot
      · simp [dotdot] at hdd
      · right
        refine rawShape_no_head_dotdot hshape hdd (fun t ht => ?_)
        rw [show stripDotDotSep [c1] = [c1] from rfl] at ht
        have := congrArg List.length ht
        simp at this
    · by_cases hdd : ([c1, c2] : List Char) = dotdot
      · exact Or.inl hdd
      · right
        refine rawShape_no_head_dotdot hshape hdd (fun t ht => ?_)
        rw [show stripDotDotSep [c1, c2] = [c1, c2] from rfl] at ht
        have := congrArg List.length ht
        simp at this
    · by_cases hpat : c1 = '.' ∧ c2 = '.' ∧ (c3 = '/' ∨ c3 = '\\')
      · obtain ⟨h1, h2, h3⟩ := hpat
        subst h1; subst h2
        have hstrip : stripDotDotSep ('.' :: '.' :: c3 :: r) = stripDotDotSep r := by
          simp [stripDotDotSep, h3]
        rw [hstrip]
        have hlr : r.length ≤ n := by simp at hl; omega
        rcases h3 with h3 | h3
        · subst h3
          obtain ⟨k, rest, heq, hrest⟩ := hshape
          have hsp : sepSplit ('.' :: '.' :: '/' :: r) = dotdot :: sepSplit r := by
            have : ('.' :: '.' :: '/' :: r : List Char) = dotdot ++ '/' :: r := rfl
            rw [this, sepSplit_append]; rfl
          rw [hsp] at heq
          cases k with
          | zero =>
            exfalso
            exact hrest dotdot (by rw [← (by simpa using heq : dotdot :: sepSplit r = rest)]; simp) rfl
          | succ j =>
            refine ih r hlr ⟨j, rest, ?_, hrest⟩
            have heq' : dotdot :: sepSplit r =
                dotdot :: (List.replicate j dotdot ++ rest) := by
              simpa [List.replicate] using heq
            injection heq'
        · subst h3
          obtain ⟨k, rest, heq, hrest⟩ := hshape
          obtain ⟨s0, ss, hr⟩ := sepSplit_cons_shape r
          have hsp : sepSplit ('.' :: '.' :: '\\' :: r) =
              ('.' :: '.' :: '\\' :: s0) :: ss :=
            sepSplit_cons_nonSep (by decide)
              (sepSplit_cons_nonSep (by decide)
                (sepSplit_cons_nonSep (by decide) hr))
          rw [hsp] at heq
          cases k with
          | succ j =>
            exfalso
            have heq' : ('.' :: '.' :: '\\' :: s0) :: ss =
                dotdot :: (List.replicate j dotdot ++ rest) := by
              simpa [List.replicate] using heq
            injection heq' with hh _
            simp [dotdot] at hh
          | zero =>
            have hrest' : rest = ('.' :: '.' :: '\\' :: s0) :: ss := by
              simpa using heq.symm
            have hss : ∀ s ∈ ss, s ≠ dotdot := by
              intro s hs
              exact hrest s (by rw [hrest']; exact List.mem_cons_of_mem _ hs)
            by_cases h0 : s0 = dotdot
            · refine ih r hlr ⟨1, ss, ?_, hss⟩
              rw [hr, h0]; rfl
            · refine ih r hlr ⟨0, s0 :: ss, by simpa using hr, ?_⟩
              intro s hs
              rcases List.mem_cons.mp hs with hs | hs
              · rw [hs]; exact h0
              · exact hss s hs
      · have hstrip : stripDotDotSep (c1 :: c2 :: c3 :: r) = c1 :: c2 :: c3 :: r := by
          simp only [stripDotDotSep, if_neg hpat]
        rw [hstrip]
        right
        refine rawShape_no_head_dotdot hshape ?_ ?_
        · intro h
          have := congrArg List.length h
          simp [dotdot] at this
        · intro t ht
          injection ht with e1 ht2
          injection ht2 with e2 ht3
          injection ht3 with e3 _
          exact hpat ⟨e1, e2, Or.inl e3⟩

theorem rawShape_normalizeLC (p : List Char) :
    ∃ (k : Nat) (rest : List (List Char)),
      sepSplit (normalizeLC p) = List.replicate k dotdot ++ rest ∧
      ∀ s ∈ rest, s ≠ dotdot := by
  obtain ⟨k', ns', hrun, hns', hk'⟩ :=
    normRun_shape (decide (p.head? = some '/')) (segsF p) [] 0 (by simp) (fun _ => rfl)
  simp only [List.reverse_nil, List.nil_append, List.replicate] at hrun
  have hout : (normRun (decide (p.head? = some '/')) [] (segsF p)).reverse =
      List.replicate k' dotdot ++ ns' := by
    rw [hrun]
    simp [List.reverse_append, List.reverse_replicate]
  have hnosl : ∀ g ∈ List.replicate k' dotdot ++ ns', '/' ∉ g := by
    intro g hg
    rw [← hout] at hg
    rcases normRun_mem _ (segsF p) [] g (List.mem_reverse.mp hg) with h | h | h
    · simp at h
    · exact mem_sepSplit_no_sep p g (List.mem_of_mem_filter h)
    · rw [h]; decide
  simp only [normalizeLC]
  rw [hout]
  by_cases hA : p.head? = some '/'
  · have hk0 : k' = 0 := hk' (decide_eq_true hA)
    subst hk0
    simp only [List.replicate, List.nil_append] at hns' hnosl ⊢
    rw [if_pos hA, if_neg (by simp : ¬('/' :: interSep ns' = ([] : List Char)))]
    have hsp : sepSplit ('/' :: interSep ns') = [] :: sepSplit (interSep ns') :=
      sepSplit_sep _
    rcases ns' with _ | ⟨x, xs⟩
    · split
      · exact ⟨0, [[], [], []], by simp [sepSplit, interSep], by
          intro s hs
          simp at hs
          simp [hs, dotdot]⟩
      · exact ⟨0, [[], []], by simp [sepSplit, interSep], by
          intro s hs
          simp at hs
          simp [hs, dotdot]⟩
    · have hne' : (x :: xs : List (List Char)) ≠ [] := by simp
      have hsp2 : sepSplit (interSep (x :: xs)) = x :: xs :=
        sepSplit_interSep _ hne' (fun s hs => hnosl s hs)
      split
      · refine ⟨0, ([] :: x :: xs) ++ [[]], ?_, ?_⟩
        · have : ('/' :: interSep (x :: xs)) ++ ['/'] =
              '/' :: (interSep (x :: xs) ++ '/' :: []) := by simp
          rw [this, sepSplit_sep, sepSplit_append, hsp2]
          simp [sepSplit]
        · intro s hs
          simp only [List.mem_append, List.mem_cons] at hs
          rcases hs with (hs | hs) | hs
          · simp [hs, dotdot]
          · exact hns' s (by simp [hs])
          · simp at hs; simp [hs, dotdot]
      · refine ⟨0, [] :: x :: xs, ?_, ?_⟩
        · rw [hsp, hsp2]; rfl
        · intro s hs
          rcases List.mem_cons.mp hs with hs | hs
          · simp [hs, dotdot]
          · exact hns' s hs
  · rw [if_neg hA]
    by_cases hb : interSep (List.replicate k' dotdot ++ ns') = []
    · rw [if_pos hb]
      split
      · exact ⟨0, [['.'], []], by simp [sepSplit], by
          intro s hs
          rcases (by simpa using hs : s = ['.'] ∨ s = []) with hs | hs <;>
            simp [hs, dotdot]⟩
      · exact ⟨0, [['.']], by simp [sepSplit], by
          intro s hs
          simp at hs
          simp [hs, dotdot]⟩
    · rw [if_neg hb]
      have hsegs_ne : (List.replicate k' dotdot ++ ns') ≠ [] := by
        intro h; rw [h] at hb; exact hb rfl
      have hsp : sepSplit (interSep (List.replicate k' dotdot ++ ns')) =
          List.replicate k' dotdot ++ ns' :=
        sepSplit_interSep _ hsegs_ne hnosl
      split
      · refine ⟨k', ns' ++ [[]], ?_, ?_⟩
        · have : interSep (List.replicate k' dotdot ++ ns') ++ ['/'] =
              interSep (List.replicate k' dotdot ++ ns') ++ '/' :: [] := rfl
          rw [this, sepSplit_append, hsp]
          simp [sepSplit]
        · intro s hs
          rcases List.mem_append.mp hs with hs | hs
          · exact hns' s hs
          · simp at hs; simp [hs, dotdot]
      · exact ⟨k', ns', hsp, hns'⟩

theorem filter_ok_self {rs : List (List Char)} (hok : ∀ s ∈ rs, okSeg s = true) :
    rs.filter (fun s => decide (s ≠ []) && decide (s ≠ ['.'])) = rs := by
  refine List.filter_eq_self.mpr (fun s hs => ?_)
  obtain ⟨h1, h2, _, _⟩ := okSeg_spec (hok s hs)
  simp [h1, h2]

theorem segsF_root {rs : List (List Char)} (hne : rs ≠ [])
    (hok : ∀ s ∈ rs, okSeg s = true) : segsF (mkAbsPath rs) = rs := by
  unfold segsF mkAbsPath
  rw [sepSplit_sep, sepSplit_interSep rs hne
    (fun s hs => (okSeg_spec (hok s hs)).2.2.2)]
  have h0 : (([] : List Char) :: rs).filter
      (fun s => decide (s ≠ []) && decide (s ≠ ['.'])) =
      rs.filter (fun s => decide (s ≠ []) && decide (s ≠ ['.'])) := by simp
  rw [h0, filter_ok_self hok]

theorem segsF_root_concat {rs : List (List Char)} (hne : rs ≠ [])
    (hok : ∀ s ∈ rs, okSeg s = true) (f : List Char) :
    segsF (mkAbsPath rs ++ '/' :: f) = rs ++ segsF f := by
  unfold segsF mkAbsPath
  have h1 : ('/' :: interSep rs) ++ '/' :: f = '/' :: (interSep rs ++ '/' :: f) := rfl
  rw [h1, sepSplit_sep, sepSplit_append, sepSplit_interSep rs hne
    (fun s hs => (okSeg_spec (hok s hs)).2.2.2)]
  have h0 : (([] : List Char) :: (rs ++ sepSplit f)).filter
      (fun s => decide (s ≠ []) && decide (s ≠ ['.'])) =
      (rs ++ sepSplit f).filter (fun s => decide (s ≠ []) && decide (s ≠ ['.'])) := by
    simp
  rw [h0, List.filter_append, filter_ok_self hok]

theorem joinLC_normal {rs : List (List Char)} (hne : rs ≠ [])
    (hok : ∀ s ∈ rs, okSeg s = true) {f : List Char}
    (hf : ∀ g ∈ segsF f, g ≠ dotdot) :
    underRoot (mkAbsPath rs) (joinLC (mkAbsPath rs) f) := by
  by_cases hf0 : f = []
  · subst hf0
    have hj : joinLC (mkAbsPath rs) [] = normalizeLC (mkAbsPath rs) := by
      simp [joinLC]
    rw [hj]
    simp only [normalizeLC]
    rw [segsF_root hne hok,
      normRun_normal _ rs [] (fun s hs => (okSeg_spec (hok s hs)).2.2.1)]
    simp only [List.append_nil, List.reverse_reverse]
    rw [if_pos (show (mkAbsPath rs).head? = some '/' from by simp [mkAbsPath]),
      if_neg (show ¬('/' :: interSep rs = ([] : List Char)) from by simp)]
    split
    · refine Or.inr ?_
      have h := isPre_refl_append (mkAbsPath rs ++ ['/']) []
      rw [List.append_nil] at h
      exact h
    · exact Or.inl rfl
  · have hj : joinLC (mkAbsPath rs) f = normalizeLC (mkAbsPath rs ++ '/' :: f) := by
      simp [joinLC, hf0]
    rw [hj]
    simp only [normalizeLC]
    rw [segsF_root_concat hne hok f,
      normRun_normal _ (rs ++ segsF f) [] (fun s hs => by
        rcases List.mem_append.mp hs with h | h
        · exact (okSeg_spec (hok s h)).2.2.1
        · exact hf s h)]
    simp only [List.append_nil, List.reverse_reverse]
    rw [if_pos (show (mkAbsPath rs ++ '/' :: f).head? = some '/' from by
        simp [mkAbsPath]),
      if_neg (show ¬('/' :: interSep (rs ++ segsF f) = ([] : List Char)) from by simp)]
    rcases hgs : segsF f with _ | ⟨g, gs⟩
    · rw [List.append_nil]
      split
      · refine Or.inr ?_
        have h := isPre_refl_append (mkAbsPath rs ++ ['/']) []
        rw [List.append_nil] at h
        exact h
      · exact Or.inl rfl
    · rw [interSep_append rs (g :: gs) hne (by simp)]
      split
      · refine Or.inr ?_
        have h := isPre_refl_append (mkAbsPath rs ++ ['/'])
          (interSep (g :: gs) ++ ['/'])
        have he : (mkAbsPath rs ++ ['/']) ++ (interSep (g :: gs) ++ ['/']) =
            ('/' :: (interSep rs ++ '/' :: interSep (g :: gs))) ++ ['/'] := by
          simp [mkAbsPath]
        rw [he] at h
        exact h
      · refine Or.inr ?_
        have h := isPre_refl_append (mkAbsPath rs ++ ['/']) (interSep (g :: gs))
        have he : (mkAbsPath rs ++ ['/']) ++ interSep (g :: gs) =
            '/' :: (interSep rs ++ '/' :: interSep (g :: gs)) := by
          simp [mkAbsPath]
        rw [he] at h
        exact h

theorem normRun_append (isAbs : Bool) :
    ∀ (xs ys stack : List (List Char)),
      normRun isAbs stack (xs ++ ys) =
        normRun isAbs (normRun isAbs stack xs) ys := by
  intro xs
  induction xs with
  | nil => intro ys stack; rfl
  | cons seg t ih =>
    intro ys stack
    rw [List.cons_append]
    by_cases hs : seg = dotdot
    · cases stack with
      | nil =>
        simp only [normRun, if_pos hs]
        exact ih ys _
      | cons top st =>
        by_cases ht : top = dotdot
        · simp only [normRun, if_pos hs, if_pos ht]
          exact ih ys _
        · simp only [normRun, if_pos hs, if_neg ht]
          exact ih ys _
    · simp only [normRun, if_neg hs]
      exact ih ys _

theorem joinLC_dotdot {rs : List (List Char)} (hne : rs ≠ [])
    (hok : ∀ s ∈ rs, okSeg s = true) :
    List.isPrefixOf (mkAbsPath rs) (joinLC (mkAbsPath rs) dotdot) = false := by
  have hj : joinLC (mkAbsPath rs) dotdot =
      normalizeLC (mkAbsPath rs ++ '/' :: dotdot) := by
    simp [joinLC, dotdot]
  rw [hj]
  simp only [normalizeLC]
  rw [segsF_root_concat hne hok dotdot]
  have hsegdd : segsF dotdot = [dotdot] := rfl
  rw [hsegdd]
  rcases List.eq_nil_or_concat rs with rfl | ⟨L, b, hrs⟩
  · exact absurd rfl hne
  subst hrs
  have hbmem : b ∈ L.concat b := by simp
  have hbne : b ≠ dotdot := (okSeg_spec (hok b hbmem)).2.2.1
  have hbnil : b ≠ [] := (okSeg_spec (hok b hbmem)).1
  have hb1 : 1 ≤ b.length := by
    cases b
    · exact absurd rfl hbnil
    · simp
  have hrun : normRun
      (decide ((mkAbsPath (L.concat b) ++ '/' :: dotdot).head? = some '/'))
      [] (L.concat b ++ [dotdot]) = L.reverse := by
    rw [normRun_append,
      normRun_normal _ (L.concat b) [] (fun s hs => (okSeg_spec (hok s hs)).2.2.1)]
    have hstk : ((L.concat b).reverse ++ ([] : List (List Char))) = b :: L.reverse := by
      simp [List.concat_eq_append, List.reverse_append]
    rw [hstk]
    simp [normRun, hbne]
  rw [hrun]
  simp only [List.reverse_reverse]
  rw [if_pos (show (mkAbsPath (L.concat b) ++ '/' :: dotdot).head? = some '/' from by
      simp [mkAbsPath]),
    if_neg (show ¬('/' :: interSep L = ([] : List Char)) from by simp)]
  rw [ends_dotdot (mkAbsPath (L.concat b))]
  simp only [Bool.false_and]
  rw [if_neg (show ¬((false : Bool) = true) from by simp)]
  cases hpre : List.isPrefixOf (mkAbsPath (L.concat b)) ('/' :: interSep L) with
  | false => rfl
  | true =>
    exfalso
    have hlen := isPre_length hpre
    rcases L with _ | ⟨a, L'⟩
    · rw [show (([] : List (List Char)).concat b) = [b] from rfl] at hlen
      have h1 : (mkAbsPath [b]).length = b.length + 1 := by
        simp [mkAbsPath, interSep]
      have h2 : (('/' :: interSep ([] : List (List Char))) : List Char).length = 1 := by
        simp [interSep]
      rw [h1, h2] at hlen
      omega
    · have hia : interSep ((a :: L').concat b) = interSep (a :: L') ++ '/' :: b := by
        rw [List.concat_eq_append, interSep_append (a :: L') [b] (by simp) (by simp)]
        rfl
      rw [mkAbsPath, hia] at hlen
      simp at hlen

/-- `C10`: For every requested URL path, the dev server's static branch
serves only absolute paths lying under the server root: whenever the
handler reaches `fs.readFile` (instead of answering 403/404), the
resolved path equals the root or extends it below a separator. -/
theorem claim_C10_static_containment :
    ∀ (rs : List (List Char)) (pathname abs : List Char),
      rs ≠ [] → (∀ s ∈ rs, okSeg s = true) →
      staticHandler (mkAbsPath rs) pathname = .tryServe abs →
      underRoot (mkAbsPath rs) abs := by
  intro rs pathname abs hne hok
  simp only [staticHandler]
  rcases hshape : stripSafe
      (normalizeLC (if pathname = ['/'] then indexHtml else pathname)).length
      (normalizeLC (if pathname = ['/'] then indexHtml else pathname)) le_rfl
      (rawShape_normalizeLC _) with hdd | hnormal
  · rw [hdd]
    rw [if_neg (show ¬(List.isPrefixOf (mkAbsPath rs)
        (joinLC (mkAbsPath rs) dotdot) = true) from by
      rw [joinLC_dotdot hne hok]; simp)]
    intro hserve
    exact absurd hserve (by simp)
  · intro hserve
    by_cases hc : List.isPrefixOf (mkAbsPath rs)
        (joinLC (mkAbsPath rs) (stripDotDotSep (normalizeLC
          (if pathname = ['/'] then indexHtml else pathname)))) = true
    · rw [if_pos hc] at hserve
      have habs : joinLC (mkAbsPath rs) (stripDotDotSep (normalizeLC
          (if pathname = ['/'] then indexHtml else pathname))) = abs := by
        injection hserve
      rw [← habs]
      exact joinLC_normal hne hok hnormal
    · rw [if_neg hc] at hserve
      exact absurd hserve (by simp)

/-- Witness for `C10`: serving `/data/family.db` from root `/app/web`
resolves inside the root. -/
theorem claim_C10_static_containment_witness :
    ([['a', 'p', 'p'], ['w', 'e', 'b']] : List (List Char)) ≠ [] ∧
    staticHandler (mkAbsPath [['a', 'p', 'p'], ['w', 'e', 'b']])
      ("/data/family.db".data) = .tryServe ("/app/web/data/family.db".data) ∧
    underRoot (mkAbsPath [['a', 'p', 'p'], ['w', 'e', 'b']])
      ("/app/web/data/family.db".data) := by
  refine ⟨by simp, rfl, ?_⟩
  exact claim_C10_static_containment [['a', 'p', 'p'], ['w', 'e', 'b']]
    ("/data/family.db".data) ("/app/web/data/family.db".data)
    (by simp) (by decide) rfl

end Wutong
